import Mathlib

/-!
Shallow embedding of the polling-diff monitors of the StackPath demonstration
app (`main.go` of stackpath-demonstration-app).

The embedded code is:

* `waitForComputeWorkload` (main.go, lines 197-250) — the bring-up instance
  monitor: polls `client.GetInstances`, diffs the result against the
  `instanceStatus` map, prints one line per new-or-changed instance, and stops
  once at least 3 instances are all in phase `"RUNNING"`.
* `displayWAFRequests` (main.go, lines 306-340) — the WAF request tailer: polls
  `client.GetWAFRequests(stack, site, mostRecentRequestTime)`, prints each
  returned request, and advances the watermark to the last record's
  `RequestTime` plus one second.
* `displayInstanceLogs` (main.go, lines 344-416) — the continuous instance
  monitor: polls instances, announces new instances and phase changes (except
  on its first iteration, where it silently populates the map), prints each
  instance's console logs, and reconciles instances that went away.

Modelling conventions:

* Go's `map[string]string` becomes an association list `Status` with the
  usual lookup/insert; Go map iteration order is modelled as list order.
* Timestamps (`time.Time`) become `Int` seconds; `time.Second` is `1`.
* Each `fmt.Printf` transition/log/WAF line becomes an `Event` value carrying
  the printf arguments of that call site; `render` reproduces the format
  strings.  Purely cosmetic output (spinners, the lone `fmt.Println()` blank
  line emitted before the first transition line of a bring-up cycle, the
  final "Done" banner) is not part of the event stream.
* Fallible collaborator calls (`GetInstances`, `GetWAFRequests`,
  `GetInstanceLogs`) become `Except String` values supplied per cycle; a run
  consumes a list of per-cycle fetch results.  `donef` (print + `os.Exit(1)`)
  becomes a terminal `fatal` outcome carrying the formatted message.
* `time.Sleep` between cycles is dropped (pure model, no real time).
* The continuous monitor's `mostRecentRequestTime` for instance logs is set
  from the wall clock (`time.Now()`), not from data; it only parameterises the
  out-of-scope log fetch and is not modelled.
-/

namespace StackpathDemo

/-- An Edge Compute workload instance (`Instance` in pkg/stackpath/compute.go). -/
structure Instance where
  id : String
  name : String
  phase : String
  ipAddress : String
  externalIPAddress : String
deriving DecidableEq, Repr

/-- A WAF-captured request (`WAFRequest` in pkg/stackpath/delivery.go); the
`time.Time` field `RequestTime` is modelled as `Int` seconds. -/
structure WAFRequest where
  id : String
  action : String
  method : String
  path : String
  clientIP : String
  country : String
  userAgent : String
  ruleName : String
  requestTime : Int
deriving DecidableEq, Repr

/-- One console line produced by a monitor's `fmt.Printf`, as structured data.
Constructors correspond one-to-one to the printf call sites in main.go:
`instanceLine` to the bring-up monitor's transition line, `newInstance`,
`phaseChanged`, `wentAway` and `logLine` to the continuous monitor's four
lines, `wafLine` to the WAF tailer's line. -/
inductive Event where
  | instanceLine (name phase : String)
  | newInstance (name phase : String)
  | phaseChanged (name phase : String)
  | wentAway (name : String)
  | logLine (name text : String)
  | wafLine (request : WAFRequest)
deriving DecidableEq, Repr

/-- Models Go's `strings.ToLower` on the ASCII phase names, character by
character over the string's character list. -/
def lowerString (s : String) : String :=
  String.mk (s.data.map Char.toLower)

/-- Renders an `Event` exactly as the corresponding `fmt.Printf` format string
does (without the trailing newline). -/
def render : Event → String
  | .instanceLine n p => "| Instance \"" ++ n ++ "\" is " ++ lowerString p
  | .newInstance n p => "[New instance " ++ n ++ "] instance is " ++ lowerString p
  | .phaseChanged n p => "[" ++ n ++ "] instance is now " ++ lowerString p
  | .wentAway n => "[" ++ n ++ "] instance went away"
  | .logLine n t => "[" ++ n ++ "] " ++ t
  | .wafLine r =>
    let fullRuleName := if r.ruleName ≠ "" then ": " ++ r.ruleName else ""
    "[WAF " ++ r.action ++ fullRuleName ++ "] " ++ toString r.requestTime ++ " "
      ++ r.method ++ " " ++ r.path ++ " - " ++ r.clientIP ++ " (" ++ r.country
      ++ ") - " ++ r.userAgent

/-- The `instanceStatus` map (`map[string]string`, instance name to last seen
phase), modelled as an association list; Go map iteration order is modelled as
list order. -/
abbrev Status := List (String × String)

/-- Go map read `v, found := m[k]`: `some v` when present, `none` when absent. -/
def lookupStatus : Status → String → Option String
  | [], _ => none
  | (k', v) :: rest, k => if k' = k then some v else lookupStatus rest k

/-- Go map write `m[k] = v`: replace in place if the key exists, else append. -/
def setStatus : Status → String → String → Status
  | [], k, v => [(k, v)]
  | (k', v') :: rest, k, v =>
    if k' = k then (k', v) :: rest else (k', v') :: setStatus rest k v

/-! ### Bring-up monitor: `waitForComputeWorkload` -/

/-- One iteration of the bring-up monitor's `for i, instance := range instances`
body (main.go 224-234): if the name is absent from the map or its recorded
phase differs from the instance's phase, print the transition line and record
the phase; otherwise do nothing. -/
def bringUpItem (s : Status) (inst : Instance) : Status × List Event :=
  if lookupStatus s inst.name ≠ some inst.phase then
    (setStatus s inst.name inst.phase, [Event.instanceLine inst.name inst.phase])
  else (s, [])

/-- The bring-up monitor's whole per-cycle instance loop: `bringUpItem` folded
left-to-right over the fetched list, concatenating the emitted lines. -/
def bringUpProcess (s : Status) : List Instance → Status × List Event
  | [] => (s, [])
  | inst :: rest =>
    let p := bringUpItem s inst
    let q := bringUpProcess p.1 rest
    (q.1, p.2 ++ q.2)

/-- The `allInstancesRunning` flag of main.go 223-239: true when every fetched
instance has phase `"RUNNING"` (the code computes it in the same loop pass;
the result is the same conjunction). -/
def allRunning (L : List Instance) : Bool :=
  L.all fun inst => inst.phase == "RUNNING"

/-- The bring-up loop's break test (main.go 240):
`allInstancesRunning && len(instances) >= 3`. -/
def stopCond (L : List Instance) : Bool :=
  allRunning L && decide (3 ≤ L.length)

/-- Terminal description of a bring-up monitor run over a finite list of
modelled fetch results. -/
inductive BringUpOutcome where
  | finished (s : Status) (poll : Nat)
  | fatal (s : Status) (msg : String)
  | looping (s : Status)
deriving DecidableEq, Repr

/-- The bring-up monitor's `for` loop (main.go 211-245) over a list of fetch
results, numbering polls from `n`: a failed fetch is fatal via `donef`; an
empty fetch `continue`s; otherwise the instance loop runs and the loop breaks
when `stopCond` holds, recording the poll number at which it broke. -/
def bringUpRunFrom (n : Nat) (s : Status) :
    List (Except String (List Instance)) → List Event × BringUpOutcome
  | [] => ([], .looping s)
  | .error e :: _ => ([], .fatal s ("Error querying instance status: " ++ e))
  | .ok insts :: rest =>
    if insts.isEmpty then bringUpRunFrom (n + 1) s rest
    else
      let p := bringUpProcess s insts
      if stopCond insts then (p.2, .finished p.1 n)
      else
        let q := bringUpRunFrom (n + 1) p.1 rest
        (p.2 ++ q.1, q.2)

/-- A bring-up monitor run with polls numbered from 1. -/
def bringUpRun (s : Status) (fs : List (Except String (List Instance))) :
    List Event × BringUpOutcome :=
  bringUpRunFrom 1 s fs

/-- Projects the poll number at which a bring-up run broke out of its loop. -/
def bringUpPoll : BringUpOutcome → Option Nat
  | .finished _ n => some n
  | _ => none

/-! ### WAF request tailer: `displayWAFRequests` -/

/-- One cycle of the WAF tailer's `for i, request := range requests` body
(main.go 315-336): print every returned request; at the last index set
`mostRecentRequestTime = request.RequestTime.Add(time.Second)`.  Returns the
watermark after the cycle and the printed lines. -/
def wafCycleAux (w : Int) : List WAFRequest → Int × List Event
  | [] => (w, [])
  | [r] => (r.requestTime + 1, [Event.wafLine r])
  | r :: r2 :: rest =>
    let q := wafCycleAux w (r2 :: rest)
    (q.1, Event.wafLine r :: q.2)

/-- Terminal description of a WAF tailer run. -/
inductive WafOutcome where
  | looping (w : Int)
  | fatal (w : Int) (msg : String)
deriving DecidableEq, Repr

/-- The WAF tailer's `for` loop (main.go 309-339) over a list of fetch
results: a failed fetch is fatal via `donef`; otherwise the cycle prints the
requests and advances the watermark. -/
def wafRun (w : Int) :
    List (Except String (List WAFRequest)) → List Event × WafOutcome
  | [] => ([], .looping w)
  | .error e :: _ => ([], .fatal w ("Error getting WAF requests: " ++ e))
  | .ok rs :: rest =>
    let c := wafCycleAux w rs
    let q := wafRun c.1 rest
    (c.2 ++ q.1, q.2)

/-- The spec's precondition on the external collaborator, as a decidable
check: every poll returns only records with timestamp at least the watermark
supplied to it, in ascending time order (watermarks evolved by `wafCycleAux`). -/
def ascendingB : List WAFRequest → Bool
  | [] => true
  | [_] => true
  | r :: r2 :: rest =>
    decide (r.requestTime ≤ r2.requestTime) && ascendingB (r2 :: rest)

/-- Validity of a whole sequence of WAF poll results starting from watermark
`w`: see `ascendingB`. -/
def validFromB (w : Int) : List (List WAFRequest) → Bool
  | [] => true
  | rs :: rest =>
    (rs.all fun r => decide (w ≤ r.requestTime)) && ascendingB rs
      && validFromB (wafCycleAux w rs).1 rest

/-! ### Continuous instance monitor: `displayInstanceLogs` -/

/-- Splits a character list at every newline character (the split semantics
of `strings.Split`/`bufio.ScanLines`, over the string's character list). -/
def splitNewlines : List Char → List (List Char)
  | [] => [[]]
  | c :: rest =>
    match splitNewlines rest with
    | [] => [[]]
    | line :: lines =>
      if c = '\n' then [] :: line :: lines else (c :: line) :: lines

/-- Drops one trailing carriage return, as `bufio.ScanLines`' `dropCR` does. -/
def dropCR (cs : List Char) : List Char :=
  match cs.getLast? with
  | some c => if c = '\r' then cs.dropLast else cs
  | none => cs

/-- Splits a console-log blob into lines the way `bufio.Scanner` with
`ScanLines` does: split on newlines, no empty final token after a trailing
newline, and a single trailing carriage return dropped from each line. -/
def scanLines (t : String) : List String :=
  let ps := splitNewlines t.data
  let ps2 := if ps.getLast? = some [] then ps.dropLast else ps
  ps2.map fun cs => String.mk (dropCR cs)

/-- The continuous monitor's status-change handling for one instance
(main.go 360-374): on the first iteration (`i == 0`) silently record the
phase; afterwards announce a new instance or a phase change and record it. -/
def contItem (first : Bool) (s : Status) (inst : Instance) : Status × List Event :=
  if first then (setStatus s inst.name inst.phase, [])
  else
    match lookupStatus s inst.name with
    | none =>
      (setStatus s inst.name inst.phase, [Event.newInstance inst.name inst.phase])
    | some phase =>
      if phase ≠ inst.phase then
        (setStatus s inst.name inst.phase, [Event.phaseChanged inst.name inst.phase])
      else (s, [])

/-- The continuous monitor's `for _, instance := range instances` loop
(main.go 355-387): per instance, the status handling of `contItem`, then the
`GetInstanceLogs` call — fatal via `donef` on error (aborting the loop),
otherwise each scanned log line is echoed.  The fetched log text (or error)
is supplied alongside each instance.  Returns the updated map, the emitted
lines, and the fatal message if a log fetch failed. -/
def contItems (first : Bool) (s : Status) :
    List (Instance × Except String String) → Status × List Event × Option String
  | [] => (s, [], none)
  | (inst, logRes) :: rest =>
    let p := contItem first s inst
    match logRes with
    | .error e =>
      (p.1, p.2, some ("Error querying " ++ inst.name ++ " instance logs: " ++ e))
    | .ok logs =>
      let levs := (scanLines logs).map fun line => Event.logLine inst.name line
      let q := contItems first p.1 rest
      (q.1, p.2 ++ levs ++ q.2.1, q.2.2)

/-- The phase recorded for key `k` by the reconcile pass's inner loop
(main.go 397-402): the phase of the last instance in the fetched list whose
name equals `k`, if any. -/
def lastPhaseOf (k : String) : List Instance → Option String
  | [] => none
  | inst :: rest =>
    match lastPhaseOf k rest with
    | some p => some p
    | none => if inst.name = k then some inst.phase else none

/-- The continuous monitor's went-away reconcile (main.go 391-410): rebuild
the map from the keys of the current map, keeping each key found in the
fetched list with that instance's phase, and announcing the keys that are
missing from the fetch. -/
def reconcile (L : List Instance) : Status → Status × List Event
  | [] => ([], [])
  | (k, _) :: rest =>
    let q := reconcile L rest
    match lastPhaseOf k L with
    | some p => ((k, p) :: q.1, q.2)
    | none => (q.1, Event.wentAway k :: q.2)

/-- One full cycle of the continuous monitor with iteration counter `i`
(main.go 349-414): the per-instance loop, then — when `i != 0` — the
went-away reconcile, then `i++`.  `Except.error` carries the fatal state and
message of a failed log fetch. -/
def contCycle (i : Nat) (s : Status) (inp : List (Instance × Except String String)) :
    List Event × Except (Status × String) (Status × Nat) :=
  match contItems (i == 0) s inp with
  | (s', evs, some msg) => (evs, Except.error (s', msg))
  | (s', evs, none) =>
    if i == 0 then (evs, Except.ok (s', i + 1))
    else
      let q := reconcile (inp.map Prod.fst) s'
      (evs ++ q.2, Except.ok (q.1, i + 1))

/-- Terminal description of a continuous monitor run. -/
inductive ContOutcome where
  | looping (s : Status) (i : Nat)
  | fatal (s : Status) (msg : String)
deriving DecidableEq, Repr

/-- The continuous monitor's `for` loop over a list of per-cycle inputs; a
failed `GetInstances` fetch is fatal via `donef` before any of that cycle's
output. -/
def contRun (i : Nat) (s : Status) :
    List (Except String (List (Instance × Except String String))) →
      List Event × ContOutcome
  | [] => ([], .looping s i)
  | .error e :: _ => ([], .fatal s ("Error querying workload instances: " ++ e))
  | .ok inp :: rest =>
    match contCycle i s inp with
    | (evs, .error (s', msg)) => (evs, .fatal s' msg)
    | (evs, .ok (s', i')) =>
      let q := contRun i' s' rest
      (evs ++ q.1, q.2)

/-- Tags a cycle input whose log fetches all succeeded with the given texts. -/
def okInputs (pairs : List (Instance × String)) :
    List (Instance × Except String String) :=
  pairs.map fun q => (q.1, Except.ok q.2)

/-- Convenient constructor for an instance with only the monitor-relevant
fields set. -/
def mkInst (n p : String) : Instance :=
  { id := "", name := n, phase := p, ipAddress := "", externalIPAddress := "" }

/-- Convenient constructor for a WAF request with a given timestamp. -/
def mkReq (t : Int) : WAFRequest :=
  { id := "", action := "", method := "", path := "", clientIP := ""
    country := "", userAgent := "", ruleName := "", requestTime := t }

/-! ### Lemmas about the status map -/

theorem lookupStatus_setStatus_self (s : Status) (k v : String) :
    lookupStatus (setStatus s k v) k = some v := by
  induction s with
  | nil => simp [setStatus, lookupStatus]
  | cons kv rest ih =>
    obtain ⟨k', v'⟩ := kv
    by_cases h : k' = k
    · simp [setStatus, lookupStatus, h]
    · simp [setStatus, lookupStatus, h, ih]

theorem lookupStatus_setStatus_ne (s : Status) (k v k' : String) (h : k ≠ k') :
    lookupStatus (setStatus s k v) k' = lookupStatus s k' := by
  induction s with
  | nil => simp [setStatus, lookupStatus, h]
  | cons kv rest ih =>
    obtain ⟨k₁, v₁⟩ := kv
    by_cases h₁ : k₁ = k
    · subst h₁; simp [setStatus, lookupStatus, h]
    · simp [setStatus, lookupStatus, h₁, ih]

/-! ### Lemmas about the bring-up monitor's per-cycle processing -/

theorem lookup_bringUpItem (s : Status) (inst : Instance) (k : String) :
    lookupStatus (bringUpItem s inst).1 k =
      if inst.name = k then some inst.phase else lookupStatus s k := by
  unfold bringUpItem
  by_cases hc : lookupStatus s inst.name = some inst.phase
  · simp only [hc, ne_eq, not_true_eq_false, if_false]
    by_cases hk : inst.name = k
    · subst hk; simp [hc]
    · simp [hk]
  · simp only [ne_eq, hc, not_false_eq_true, if_true]
    by_cases hk : inst.name = k
    · subst hk; simp [lookupStatus_setStatus_self]
    · simp [hk, lookupStatus_setStatus_ne _ _ _ _ hk]

theorem lastPhaseOf_eq_none (k : String) (L : List Instance) :
    lastPhaseOf k L = none ↔ k ∉ L.map Instance.name := by
  induction L with
  | nil => simp [lastPhaseOf]
  | cons inst rest ih =>
    cases hrest : lastPhaseOf k rest with
    | some p =>
      have hk : k ∈ List.map Instance.name rest := by
        by_contra hnk
        rw [ih.mpr hnk] at hrest
        cases hrest
      simp [lastPhaseOf, hrest, List.mem_cons, hk]
    | none =>
      by_cases hk : inst.name = k
      · subst hk
        simp [lastPhaseOf, hrest]
      · have h1 : k ∉ List.map Instance.name rest := ih.mp hrest
        have h2 : ¬k = inst.name := fun h => hk h.symm
        simp [lastPhaseOf, hrest, hk, List.mem_cons, h1, h2]

theorem lastPhaseOf_of_nodup (L : List Instance) (inst : Instance)
    (h : (L.map Instance.name).Nodup) (hm : inst ∈ L) :
    lastPhaseOf inst.name L = some inst.phase := by
  induction L with
  | nil => cases hm
  | cons x rest ih =>
    simp only [List.map_cons, List.nodup_cons] at h
    obtain ⟨hx, hrest⟩ := h
    rcases List.mem_cons.mp hm with heq | hmem
    · subst heq
      have : lastPhaseOf inst.name rest = none :=
        (lastPhaseOf_eq_none _ _).mpr hx
      simp [lastPhaseOf, this]
    · have : lastPhaseOf inst.name rest = some inst.phase := ih hrest hmem
      simp [lastPhaseOf, this]

theorem lookup_bringUpProcess (s : Status) (L : List Instance) (k : String) :
    lookupStatus (bringUpProcess s L).1 k =
      match lastPhaseOf k L with
      | some p => some p
      | none => lookupStatus s k := by
  induction L generalizing s with
  | nil => simp [bringUpProcess, lastPhaseOf]
  | cons inst rest ih =>
    simp only [bringUpProcess]
    rw [ih]
    cases hrest : lastPhaseOf k rest with
    | some p => simp [lastPhaseOf, hrest]
    | none =>
      simp only [lastPhaseOf, hrest, lookup_bringUpItem]
      by_cases hk : inst.name = k
      · simp [hk]
      · simp [hk]

theorem bringUpProcess_events (s : Status) (L : List Instance)
    (h : (L.map Instance.name).Nodup) :
    (bringUpProcess s L).2 =
      (L.filter fun inst => decide (lookupStatus s inst.name ≠ some inst.phase)).map
        fun inst => Event.instanceLine inst.name inst.phase := by
  induction L generalizing s with
  | nil => simp [bringUpProcess]
  | cons inst rest ih =>
    simp only [List.map_cons, List.nodup_cons] at h
    obtain ⟨hni, hnd⟩ := h
    have hne : ∀ x ∈ rest, x.name ≠ inst.name := by
      intro x hx hcontra
      exact hni (hcontra ▸ List.mem_map_of_mem Instance.name hx)
    by_cases hc : lookupStatus s inst.name = some inst.phase
    · simp only [bringUpProcess, bringUpItem, hc, ne_eq, not_true_eq_false,
        if_false, List.nil_append]
      rw [ih s hnd, List.filter_cons]
      simp [hc]
    · have hflt : List.filter
          (fun x => decide (lookupStatus (setStatus s inst.name inst.phase) x.name ≠ some x.phase)) rest
          = List.filter (fun x => decide (lookupStatus s x.name ≠ some x.phase)) rest := by
        apply List.filter_congr
        intro x hx
        rw [lookupStatus_setStatus_ne _ _ _ _ fun hh => hne x hx hh.symm]
      simp only [bringUpProcess, bringUpItem, ne_eq, hc, not_false_eq_true,
        if_true]
      rw [ih _ hnd]
      simp only [ne_eq] at hflt
      rw [hflt, List.filter_cons]
      simp [hc]

/-- C1: In the bring-up instance monitor, a cycle over a fetched list (with
the data model's unique names) emits exactly one transition line per item
whose name is absent from the status map or whose phase differs from the
recorded one — and no line for any other item; every fetched item's phase is
then recorded, names not fetched keep their recorded value, and re-processing
the same fetch from the resulting map emits zero transition lines. -/
theorem bringup_per_item_diff_rule (s : Status) (L : List Instance)
    (h : (L.map Instance.name).Nodup) :
    (bringUpProcess s L).2 =
        ((L.filter fun inst => decide (lookupStatus s inst.name ≠ some inst.phase)).map
          fun inst => Event.instanceLine inst.name inst.phase)
      ∧ (∀ inst ∈ L, lookupStatus (bringUpProcess s L).1 inst.name = some inst.phase)
      ∧ (∀ k, k ∉ L.map Instance.name →
          lookupStatus (bringUpProcess s L).1 k = lookupStatus s k)
      ∧ (bringUpProcess (bringUpProcess s L).1 L).2 = [] := by
  have hrec : ∀ inst ∈ L, lookupStatus (bringUpProcess s L).1 inst.name = some inst.phase := by
    intro inst hm
    rw [lookup_bringUpProcess, lastPhaseOf_of_nodup L inst h hm]
  refine ⟨bringUpProcess_events s L h, hrec, ?_, ?_⟩
  · intro k hk
    rw [lookup_bringUpProcess, (lastPhaseOf_eq_none k L).mpr hk]
  · rw [bringUpProcess_events _ L h]
    have : L.filter
        (fun inst => decide (lookupStatus (bringUpProcess s L).1 inst.name ≠ some inst.phase)) = [] := by
      apply List.filter_eq_nil_iff.mpr
      intro inst hm
      simp [hrec inst hm]
    rw [this]
    rfl

/-- Witness for C1 at a concrete input: prior state `A ↦ PENDING`, fetch
`[A RUNNING, B PENDING]` emits one line per item, and repeating the same
fetch emits nothing. -/
theorem bringup_per_item_diff_rule_witness :
    (([mkInst "A" "RUNNING", mkInst "B" "PENDING"].map Instance.name).Nodup)
      ∧ (bringUpProcess [("A", "PENDING")] [mkInst "A" "RUNNING", mkInst "B" "PENDING"]).2
          = [Event.instanceLine "A" "RUNNING", Event.instanceLine "B" "PENDING"]
      ∧ lookupStatus (bringUpProcess [("A", "PENDING")]
          [mkInst "A" "RUNNING", mkInst "B" "PENDING"]).1 "A" = some "RUNNING"
      ∧ (bringUpProcess
          (bringUpProcess [("A", "PENDING")] [mkInst "A" "RUNNING", mkInst "B" "PENDING"]).1
          [mkInst "A" "RUNNING", mkInst "B" "PENDING"]).2 = [] := by
  have h := bringup_per_item_diff_rule [("A", "PENDING")]
    [mkInst "A" "RUNNING", mkInst "B" "PENDING"] (by decide)
  exact ⟨by decide, h.1.trans (by decide), h.2.1 (mkInst "A" "RUNNING") (by decide),
    h.2.2.2⟩

/-- C10: With a duplicated instance name in one fetch (`A PENDING` then
`A RUNNING` against an empty map), the bring-up monitor emits two transition
lines for the single key `A` in that one cycle — one per occurrence whose
phase differed from the then-recorded value — and ends the cycle with the
last occurrence's phase recorded. -/
theorem bringup_duplicate_key_two_events :
    (bringUpProcess [] [mkInst "A" "PENDING", mkInst "A" "RUNNING"]).2
        = [Event.instanceLine "A" "PENDING", Event.instanceLine "A" "RUNNING"]
      ∧ (bringUpProcess [] [mkInst "A" "PENDING", mkInst "A" "RUNNING"]).1
        = [("A", "RUNNING")] := by
  decide

/-! ### Lemmas about the WAF tailer's cycle -/

theorem wafCycleAux_events (w : Int) (rs : List WAFRequest) :
    (wafCycleAux w rs).2 = rs.map Event.wafLine := by
  induction rs with
  | nil => rfl
  | cons r rest ih =>
    cases rest with
    | nil => rfl
    | cons r2 rest2 => simp [wafCycleAux, ih]

theorem wafCycleAux_last (w : Int) (rs : List WAFRequest) (r : WAFRequest)
    (h : rs.getLast? = some r) : (wafCycleAux w rs).1 = r.requestTime + 1 := by
  induction rs with
  | nil => cases h
  | cons a rest ih =>
    cases rest with
    | nil =>
      simp only [List.getLast?_singleton, Option.some.injEq] at h
      subst h
      rfl
    | cons b rest2 =>
      rw [List.getLast?_cons_cons] at h
      simp [wafCycleAux, ih h]

/-- C2: For the WAF event monitor's cycle, an empty fetch leaves the
watermark unchanged, a non-empty fetch advances it to the last returned
record's timestamp plus one second, and for three ascending timestamps
`T1 < T2 < T3` returned in one poll the watermark becomes `T3 + 1`, so a
subsequent poll honouring the `since` contract can return none of
`T1..T3`. -/
theorem waf_watermark_rule (w : Int) (rs : List WAFRequest) (r : WAFRequest)
    (hlast : rs.getLast? = some r) :
    (wafCycleAux w []).1 = w
      ∧ (wafCycleAux w rs).1 = r.requestTime + 1
      ∧ ∀ r1 r2 r3 : WAFRequest,
          r1.requestTime < r2.requestTime → r2.requestTime < r3.requestTime →
          (wafCycleAux w [r1, r2, r3]).1 = r3.requestTime + 1
            ∧ ∀ rs' : List WAFRequest,
                (∀ x ∈ rs', (wafCycleAux w [r1, r2, r3]).1 ≤ x.requestTime) →
                ∀ x ∈ rs', x.requestTime ≠ r1.requestTime
                  ∧ x.requestTime ≠ r2.requestTime
                  ∧ x.requestTime ≠ r3.requestTime := by
  refine ⟨rfl, wafCycleAux_last w rs r hlast, ?_⟩
  intro r1 r2 r3 h12 h23
  have h3 : (wafCycleAux w [r1, r2, r3]).1 = r3.requestTime + 1 :=
    wafCycleAux_last w [r1, r2, r3] r3 rfl
  refine ⟨h3, ?_⟩
  intro rs' hbound x hx
  have hb := hbound x hx
  rw [h3] at hb
  refine ⟨?_, ?_, ?_⟩ <;> omega

/-- Witness for C2 at timestamps 1 < 2 < 3 and a subsequent record at 7. -/
theorem waf_watermark_rule_witness :
    ([mkReq 1, mkReq 2, mkReq 3].getLast? = some (mkReq 3))
      ∧ (wafCycleAux 0 [mkReq 1, mkReq 2, mkReq 3]).1 = (mkReq 3).requestTime + 1
      ∧ ((mkReq 7).requestTime ≠ (mkReq 1).requestTime
          ∧ (mkReq 7).requestTime ≠ (mkReq 2).requestTime
          ∧ (mkReq 7).requestTime ≠ (mkReq 3).requestTime) := by
  have h := waf_watermark_rule 0 [mkReq 1, mkReq 2, mkReq 3] (mkReq 3) (by decide)
  have h4 := (h.2.2 (mkReq 1) (mkReq 2) (mkReq 3) (by decide) (by decide)).2
    [mkReq 7] (by decide)
  exact ⟨by decide, h.2.1, h4 (mkReq 7) (by decide)⟩

/-! ### Lemmas about the bring-up monitor's run -/

theorem bringUpRunFrom_break (n : Nat) (s : Status) (fs : List (List Instance))
    (K : Nat) (hK : K < fs.length)
    (h1 : stopCond (fs.getD K []) = true)
    (h2 : ∀ j, j < K → stopCond (fs.getD j []) = false) :
    bringUpPoll (bringUpRunFrom n s (fs.map Except.ok)).2 = some (n + K) := by
  induction fs generalizing n s K with
  | nil => cases hK
  | cons L rest ih =>
    cases K with
    | zero =>
      have h1' : stopCond L = true := h1
      have hne : L.isEmpty = false := by
        cases L with
        | nil => cases h1'
        | cons a l => rfl
      simp [bringUpRunFrom, hne, h1', bringUpPoll]
    | succ K' =>
      have h0 : stopCond L = false := h2 0 (Nat.succ_pos K')
      have h1' : stopCond (rest.getD K' []) = true := h1
      have h2' : ∀ j, j < K' → stopCond (rest.getD j []) = false :=
        fun j hj => h2 (j + 1) (Nat.succ_lt_succ hj)
      by_cases hne : L.isEmpty
      · have := ih (n + 1) s K' (Nat.lt_of_succ_lt_succ hK) h1' h2'
        simp only [List.map_cons, bringUpRunFrom, hne, if_true]
        rw [this]
        congr 1
        omega
      · have := ih (n + 1) (bringUpProcess s L).1 K' (Nat.lt_of_succ_lt_succ hK) h1' h2'
        simp only [List.map_cons, bringUpRunFrom, Bool.not_eq_true] at hne ⊢
        rw [hne]
        simp only [Bool.false_eq_true, if_false, h0]
        rw [this]
        congr 1
        omega

/-- C3: The bring-up monitor's loop breaks exactly at the first poll whose
fetched list has at least 3 instances, all in phase `"RUNNING"`
(`stopCond`), and at no earlier poll: with polls numbered from 1, its
outcome is `finished` at poll `K + 1` when index `K` is the first fetch
result satisfying `stopCond`. -/
theorem bringup_termination (s : Status) (fs : List (List Instance)) (K : Nat)
    (hK : K < fs.length) (h1 : stopCond (fs.getD K []) = true)
    (h2 : ∀ j, j < K → stopCond (fs.getD j []) = false) :
    bringUpPoll (bringUpRun s (fs.map Except.ok)).2 = some (K + 1) := by
  have h := bringUpRunFrom_break 1 s fs K hK h1 h2
  rw [bringUpRun, h]
  congr 1
  omega

/-- Witness for C3: an empty first poll, then a poll with three running
instances; the loop finishes at poll 2 and not at poll 1. -/
theorem bringup_termination_witness :
    bringUpPoll (bringUpRun []
      ([[], [mkInst "a" "RUNNING", mkInst "b" "RUNNING", mkInst "c" "RUNNING"]].map
        Except.ok)).2 = some 2 := by
  refine bringup_termination [] _ 1 (by decide) (by decide) ?_
  intro j hj
  have hj0 : j = 0 := Nat.lt_one_iff.mp hj
  subst hj0
  decide

/-! ### Lemmas about the status map's key list -/

theorem lookup_isSome_iff (s : Status) (k : String) :
    (lookupStatus s k).isSome ↔ k ∈ s.map Prod.fst := by
  induction s with
  | nil => simp [lookupStatus]
  | cons kv rest ih =>
    obtain ⟨k', v'⟩ := kv
    by_cases h : k' = k
    · subst h; simp [lookupStatus]
    · have h2 : ¬k = k' := fun hh => h hh.symm
      simp [lookupStatus, h, h2, ih]

theorem keys_setStatus (s : Status) (k v : String) :
    (setStatus s k v).map Prod.fst
      = if (lookupStatus s k).isSome then s.map Prod.fst
        else s.map Prod.fst ++ [k] := by
  induction s with
  | nil => simp [setStatus, lookupStatus]
  | cons kv rest ih =>
    obtain ⟨k', v'⟩ := kv
    by_cases h : k' = k
    · subst h; simp [setStatus, lookupStatus]
    · simp only [setStatus, h, if_false, List.map_cons, lookupStatus, ih]
      by_cases h2 : (lookupStatus rest k).isSome
      · simp [h2]
      · simp [h2]

theorem nodup_keys_setStatus (s : Status) (k v : String)
    (h : (s.map Prod.fst).Nodup) : ((setStatus s k v).map Prod.fst).Nodup := by
  rw [keys_setStatus]
  by_cases h2 : (lookupStatus s k).isSome
  · simp [h2, h]
  · have hk : k ∉ s.map Prod.fst := by
      rw [← lookup_isSome_iff]
      exact h2
    simp only [h2, Bool.false_eq_true, if_false]
    rw [List.nodup_append]
    exact ⟨h, List.nodup_singleton k, by simpa using hk⟩

/-! ### Lemmas about the continuous monitor's per-instance pass -/

theorem lookup_contItem (first : Bool) (s : Status) (inst : Instance) (k : String) :
    lookupStatus (contItem first s inst).1 k =
      if inst.name = k then some inst.phase else lookupStatus s k := by
  have hset : ∀ s' : Status, lookupStatus (setStatus s' inst.name inst.phase) k =
      if inst.name = k then some inst.phase else lookupStatus s' k := by
    intro s'
    by_cases hk : inst.name = k
    · subst hk; simp [lookupStatus_setStatus_self]
    · simp [hk, lookupStatus_setStatus_ne _ _ _ _ hk]
  cases first with
  | true => simpa [contItem] using hset s
  | false =>
    simp only [contItem]
    cases hl : lookupStatus s inst.name with
    | none => simpa using hset s
    | some p =>
      by_cases hp : p = inst.phase
      · subst hp
        simp only [ne_eq, not_true_eq_false, if_false]
        by_cases hk : inst.name = k
        · subst hk; simp [hl]
        · simp [hk]
      · simpa [hp] using hset s

theorem nodup_keys_contItem (first : Bool) (s : Status) (inst : Instance)
    (h : (s.map Prod.fst).Nodup) : ((contItem first s inst).1.map Prod.fst).Nodup := by
  cases first with
  | true => exact nodup_keys_setStatus s inst.name inst.phase h
  | false =>
    simp only [contItem]
    cases hl : lookupStatus s inst.name with
    | none => exact nodup_keys_setStatus s inst.name inst.phase h
    | some p =>
      by_cases hp : p = inst.phase
      · simpa [hp] using h
      · simpa [hp] using nodup_keys_setStatus s inst.name inst.phase h

theorem contItem_events_cases (first : Bool) (s : Status) (inst : Instance) :
    (contItem first s inst).2 = []
      ∨ (contItem first s inst).2 = [Event.newInstance inst.name inst.phase]
      ∨ (contItem first s inst).2 = [Event.phaseChanged inst.name inst.phase] := by
  cases first with
  | true => left; rfl
  | false =>
    simp only [contItem]
    cases hl : lookupStatus s inst.name with
    | none => right; left; rfl
    | some p =>
      by_cases hp : p = inst.phase
      · left; simp [hp]
      · right; right; simp [hp]

theorem contItems_okInputs (first : Bool) (s : Status)
    (pairs : List (Instance × String)) :
    contItems first s (okInputs pairs) =
      match pairs with
      | [] => (s, [], none)
      | (inst, logs) :: rest =>
        let p := contItem first s inst
        let levs := (scanLines logs).map fun line => Event.logLine inst.name line
        let q := contItems first p.1 (okInputs rest)
        (q.1, p.2 ++ levs ++ q.2.1, q.2.2) := by
  cases pairs with
  | nil => rfl
  | cons hd rest => rfl

theorem contItems_ok_no_fatal (first : Bool) (s : Status)
    (pairs : List (Instance × String)) :
    (contItems first s (okInputs pairs)).2.2 = none := by
  induction pairs generalizing s with
  | nil => rfl
  | cons hd rest ih =>
    obtain ⟨inst, logs⟩ := hd
    rw [contItems_okInputs]
    simpa using ih (contItem first s inst).1

theorem lookup_contItems (first : Bool) (s : Status)
    (pairs : List (Instance × String)) (k : String) :
    lookupStatus (contItems first s (okInputs pairs)).1 k =
      match lastPhaseOf k (pairs.map Prod.fst) with
      | some p => some p
      | none => lookupStatus s k := by
  induction pairs generalizing s with
  | nil => simp [contItems, okInputs, lastPhaseOf]
  | cons hd rest ih =>
    obtain ⟨inst, logs⟩ := hd
    rw [contItems_okInputs]
    simp only [List.map_cons]
    rw [ih]
    cases hrest : lastPhaseOf k (rest.map Prod.fst) with
    | some p => simp [lastPhaseOf, hrest]
    | none =>
      simp only [lastPhaseOf, hrest, lookup_contItem]
      by_cases hk : inst.name = k
      · simp [hk]
      · simp [hk]

theorem nodup_keys_contItems (first : Bool) (s : Status)
    (pairs : List (Instance × String)) (h : (s.map Prod.fst).Nodup) :
    ((contItems first s (okInputs pairs)).1.map Prod.fst).Nodup := by
  induction pairs generalizing s with
  | nil => simpa [contItems, okInputs] using h
  | cons hd rest ih =>
    obtain ⟨inst, logs⟩ := hd
    rw [contItems_okInputs]
    exact ih (contItem first s inst).1 (nodup_keys_contItem first s inst h)

theorem contItems_event_forms (first : Bool) (s : Status)
    (pairs : List (Instance × String)) :
    ∀ e ∈ (contItems first s (okInputs pairs)).2.1,
      ∃ x ∈ pairs.map Prod.fst,
        (∃ t, e = Event.logLine x.name t)
          ∨ e = Event.newInstance x.name x.phase
          ∨ e = Event.phaseChanged x.name x.phase := by
  induction pairs generalizing s with
  | nil => intro e he; simp [contItems, okInputs] at he
  | cons hd rest ih =>
    obtain ⟨inst, logs⟩ := hd
    rw [contItems_okInputs]
    intro e he
    simp only [List.mem_append] at he
    rcases he with (he | he) | he
    · refine ⟨inst, by simp, ?_⟩
      rcases contItem_events_cases first s inst with hc | hc | hc <;> rw [hc] at he
      · cases he
      · simp only [List.mem_singleton] at he
        exact Or.inr (Or.inl he)
      · simp only [List.mem_singleton] at he
        exact Or.inr (Or.inr he)
    · obtain ⟨t, _, ht⟩ := List.mem_map.mp he
      exact ⟨inst, by simp, Or.inl ⟨t, ht.symm⟩⟩
    · obtain ⟨x, hx, hform⟩ := ih (contItem first s inst).1 e he
      exact ⟨x, by simp [hx], hform⟩

theorem contItems_first_only_logs (s : Status) (pairs : List (Instance × String)) :
    ∀ e ∈ (contItems true s (okInputs pairs)).2.1, ∃ n t, e = Event.logLine n t := by
  induction pairs generalizing s with
  | nil => intro e he; simp [contItems, okInputs] at he
  | cons hd rest ih =>
    obtain ⟨inst, logs⟩ := hd
    rw [contItems_okInputs]
    intro e he
    simp only [List.mem_append] at he
    rcases he with (he | he) | he
    · simp [contItem] at he
    · obtain ⟨t, _, ht⟩ := List.mem_map.mp he
      exact ⟨inst.name, t, ht.symm⟩
    · exact ih (contItem true s inst).1 e he

/-! ### Lemmas about the continuous monitor's reconcile pass -/

theorem reconcile_nil_fetch (s : Status) :
    reconcile [] s = ([], s.map fun kv => Event.wentAway kv.1) := by
  induction s with
  | nil => rfl
  | cons kv rest ih =>
    obtain ⟨k, v⟩ := kv
    simp [reconcile, lastPhaseOf, ih]

theorem lookup_reconcile (L : List Instance) (s : Status) (k : String) :
    lookupStatus (reconcile L s).1 k =
      match lastPhaseOf k L with
      | none => none
      | some p => if (lookupStatus s k).isSome then some p else none := by
  induction s with
  | nil =>
    cases h : lastPhaseOf k L <;> simp [reconcile, lookupStatus, h]
  | cons kv rest ih =>
    obtain ⟨k₁, v₁⟩ := kv
    simp only [reconcile]
    cases h1 : lastPhaseOf k₁ L with
    | some p₁ =>
      by_cases hk : k₁ = k
      · subst hk
        simp [lookupStatus, h1]
      · simp only [lookupStatus, hk, if_false]
        rw [ih]
    | none =>
      by_cases hk : k₁ = k
      · subst hk
        simp only
        rw [ih]
        simp [h1, lookupStatus]
      · simp only
        rw [ih]
        simp [lookupStatus, hk]

theorem mem_reconcile_events (L : List Instance) (s : Status) :
    ∀ e ∈ (reconcile L s).2, ∃ k, e = Event.wentAway k := by
  induction s with
  | nil => intro e he; cases he
  | cons kv rest ih =>
    obtain ⟨k₁, v₁⟩ := kv
    simp only [reconcile]
    cases h1 : lastPhaseOf k₁ L with
    | some p₁ =>
      intro e he
      exact ih e he
    | none =>
      intro e he
      rcases List.mem_cons.mp he with he | he
      · exact ⟨k₁, he⟩
      · exact ih e he

theorem reconcile_count_wentAway (L : List Instance) (s : Status) (k : String) :
    (reconcile L s).2.count (Event.wentAway k)
      = if lastPhaseOf k L = none then (s.map Prod.fst).count k else 0 := by
  induction s with
  | nil => cases h : lastPhaseOf k L <;> simp [reconcile, h]
  | cons kv rest ih =>
    obtain ⟨k₁, v₁⟩ := kv
    simp only [reconcile]
    cases h1 : lastPhaseOf k₁ L with
    | some p₁ =>
      simp only
      rw [ih]
      by_cases hk : k₁ = k
      · subst hk
        simp [h1]
      · have hk2 : ¬k = k₁ := fun hh => hk hh.symm
        cases h2 : lastPhaseOf k L <;>
          simp [h2, List.count_cons, hk2]
    | none =>
      simp only
      rw [List.count_cons]
      rw [ih]
      by_cases hk : k₁ = k
      · subst hk
        simp [h1, List.count_cons]
      · have hk2 : ¬k = k₁ := fun hh => hk hh.symm
        cases h2 : lastPhaseOf k L <;>
          simp [h2, List.count_cons, hk, hk2, Event.wentAway.injEq]

/-! ### Counting specific transition events -/

theorem bringUpItem_events_cases (s : Status) (inst : Instance) :
    (bringUpItem s inst).2 = []
      ∨ (bringUpItem s inst).2 = [Event.instanceLine inst.name inst.phase] := by
  unfold bringUpItem
  by_cases hc : lookupStatus s inst.name = some inst.phase
  · left; simp [hc]
  · right; simp [hc]

theorem bringUp_count (s : Status) (L : List Instance) (inst : Instance)
    (h : (L.map Instance.name).Nodup) (hm : inst ∈ L) :
    (bringUpProcess s L).2.count (Event.instanceLine inst.name inst.phase)
      = if lookupStatus s inst.name = some inst.phase then 0 else 1 := by
  induction L generalizing s with
  | nil => cases hm
  | cons x rest ih =>
    simp only [List.map_cons, List.nodup_cons] at h
    obtain ⟨hni, hnd⟩ := h
    simp only [bringUpProcess, List.count_append]
    rcases List.mem_cons.mp hm with heq | hmem
    · subst heq
      have htail : ((bringUpProcess (bringUpItem s inst).1 rest).2).count
          (Event.instanceLine inst.name inst.phase) = 0 := by
        rw [bringUpProcess_events _ rest hnd]
        apply List.count_eq_zero.mpr
        intro hmem'
        obtain ⟨y, hy, hey⟩ := List.mem_map.mp hmem'
        simp only [Event.instanceLine.injEq] at hey
        exact hni (hey.1 ▸ List.mem_map_of_mem Instance.name (List.mem_of_mem_filter hy))
      rw [htail]
      unfold bringUpItem
      by_cases hc : lookupStatus s inst.name = some inst.phase
      · simp [hc]
      · simp [hc, List.count_cons]
    · have hxname : x.name ≠ inst.name :=
        fun hh => hni (hh ▸ List.mem_map_of_mem Instance.name hmem)
      have hxname' : inst.name ≠ x.name := fun hh => hxname hh.symm
      have hhead : ((bringUpItem s x).2).count
          (Event.instanceLine inst.name inst.phase) = 0 := by
        rcases bringUpItem_events_cases s x with hcase | hcase <;> rw [hcase]
        · rfl
        · simp [List.count_cons, Event.instanceLine.injEq, hxname']
      rw [hhead, ih _ hnd hmem, lookup_bringUpItem]
      simp [hxname]

theorem contItems_count_new (s : Status) (pairs : List (Instance × String))
    (inst : Instance)
    (h : ((pairs.map Prod.fst).map Instance.name).Nodup)
    (hm : inst ∈ pairs.map Prod.fst) :
    ((contItems false s (okInputs pairs)).2.1).count
        (Event.newInstance inst.name inst.phase)
      = if lookupStatus s inst.name = none then 1 else 0 := by
  induction pairs generalizing s with
  | nil => cases hm
  | cons hd rest ih =>
    obtain ⟨x, logs⟩ := hd
    simp only [List.map_cons, List.nodup_cons] at h hm
    obtain ⟨hni, hnd⟩ := h
    rw [contItems_okInputs]
    simp only [List.count_append]
    have hlog : ((scanLines logs).map fun line => Event.logLine x.name line).count
        (Event.newInstance inst.name inst.phase) = 0 := by
      apply List.count_eq_zero.mpr
      intro hmem'
      obtain ⟨t, _, ht⟩ := List.mem_map.mp hmem'
      cases ht
    rcases List.mem_cons.mp hm with heq | hmem2
    · subst heq
      have htail : ((contItems false (contItem false s inst).1 (okInputs rest)).2.1).count
          (Event.newInstance inst.name inst.phase) = 0 := by
        apply List.count_eq_zero.mpr
        intro hmem'
        obtain ⟨y, hy, hform⟩ :=
          contItems_event_forms false (contItem false s inst).1 rest _ hmem'
        rcases hform with ⟨t, ht⟩ | hfe | hfe
        · exact Event.noConfusion ht
        · simp only [Event.newInstance.injEq] at hfe
          exact hni (hfe.1 ▸ List.mem_map_of_mem Instance.name hy)
        · exact Event.noConfusion hfe
      rw [htail, hlog]
      simp only [contItem]
      cases hl : lookupStatus s inst.name with
      | none => simp [List.count_cons]
      | some p =>
        by_cases hp : p = inst.phase
        · simp [hp]
        · simp [hp, List.count_cons]
    · have hxname : x.name ≠ inst.name :=
        fun hh => hni (hh ▸ List.mem_map_of_mem Instance.name hmem2)
      have hxname' : inst.name ≠ x.name := fun hh => hxname hh.symm
      have hhead : ((contItem false s x).2).count
          (Event.newInstance inst.name inst.phase) = 0 := by
        rcases contItem_events_cases false s x with hc | hc | hc <;> rw [hc]
        · rfl
        · simp [List.count_cons, Event.newInstance.injEq, hxname']
        · simp [List.count_cons]
      rw [hhead, hlog, ih _ hnd hmem2, lookup_contItem]
      simp [hxname]

theorem contItems_count_changed (s : Status) (pairs : List (Instance × String))
    (inst : Instance)
    (h : ((pairs.map Prod.fst).map Instance.name).Nodup)
    (hm : inst ∈ pairs.map Prod.fst) :
    ((contItems false s (okInputs pairs)).2.1).count
        (Event.phaseChanged inst.name inst.phase)
      = match lookupStatus s inst.name with
        | none => 0
        | some p => if p = inst.phase then 0 else 1 := by
  induction pairs generalizing s with
  | nil => cases hm
  | cons hd rest ih =>
    obtain ⟨x, logs⟩ := hd
    simp only [List.map_cons, List.nodup_cons] at h hm
    obtain ⟨hni, hnd⟩ := h
    rw [contItems_okInputs]
    simp only [List.count_append]
    have hlog : ((scanLines logs).map fun line => Event.logLine x.name line).count
        (Event.phaseChanged inst.name inst.phase) = 0 := by
      apply List.count_eq_zero.mpr
      intro hmem'
      obtain ⟨t, _, ht⟩ := List.mem_map.mp hmem'
      cases ht
    rcases List.mem_cons.mp hm with heq | hmem2
    · subst heq
      have htail : ((contItems false (contItem false s inst).1 (okInputs rest)).2.1).count
          (Event.phaseChanged inst.name inst.phase) = 0 := by
        apply List.count_eq_zero.mpr
        intro hmem'
        obtain ⟨y, hy, hform⟩ :=
          contItems_event_forms false (contItem false s inst).1 rest _ hmem'
        rcases hform with ⟨t, ht⟩ | hfe | hfe
        · exact Event.noConfusion ht
        · exact Event.noConfusion hfe
        · simp only [Event.phaseChanged.injEq] at hfe
          exact hni (hfe.1 ▸ List.mem_map_of_mem Instance.name hy)
      rw [htail, hlog]
      simp only [contItem]
      cases hl : lookupStatus s inst.name with
      | none => simp [List.count_cons]
      | some p =>
        by_cases hp : p = inst.phase
        · simp [hp]
        · simp [hp, List.count_cons]
    · have hxname : x.name ≠ inst.name :=
        fun hh => hni (hh ▸ List.mem_map_of_mem Instance.name hmem2)
      have hxname' : inst.name ≠ x.name := fun hh => hxname hh.symm
      have hhead : ((contItem false s x).2).count
          (Event.phaseChanged inst.name inst.phase) = 0 := by
        rcases contItem_events_cases false s x with hc | hc | hc <;> rw [hc]
        · rfl
        · simp [List.count_cons]
        · simp [List.count_cons, Event.phaseChanged.injEq, hxname']
      rw [hhead, hlog, ih _ hnd hmem2, lookup_contItem]
      simp [hxname]

/-! ### Assembling a full continuous-monitor cycle -/

theorem okInputs_fst (pairs : List (Instance × String)) :
    (okInputs pairs).map Prod.fst = pairs.map Prod.fst := by
  induction pairs with
  | nil => rfl
  | cons hd rest ih =>
    simp only [okInputs, List.map_cons] at ih ⊢
    rw [ih]

theorem contCycle_ok (i : Nat) (s : Status) (pairs : List (Instance × String))
    (hi : i ≠ 0) :
    contCycle i s (okInputs pairs)
      = ((contItems false s (okInputs pairs)).2.1
            ++ (reconcile (pairs.map Prod.fst) (contItems false s (okInputs pairs)).1).2,
         Except.ok
           ((reconcile (pairs.map Prod.fst) (contItems false s (okInputs pairs)).1).1,
            i + 1)) := by
  have hb : (i == 0) = false := beq_eq_false_iff_ne.mpr hi
  have hf := contItems_ok_no_fatal false s pairs
  rcases hc : contItems false s (okInputs pairs) with ⟨s', evs, f⟩
  rw [hc] at hf
  simp only at hf
  subst hf
  simp only [contCycle, hb, hc, okInputs_fst, Bool.false_eq_true, if_false]

theorem contCycle_first (s : Status) (pairs : List (Instance × String)) :
    contCycle 0 s (okInputs pairs)
      = ((contItems true s (okInputs pairs)).2.1,
         Except.ok ((contItems true s (okInputs pairs)).1, 1)) := by
  have hf := contItems_ok_no_fatal true s pairs
  rcases hc : contItems true s (okInputs pairs) with ⟨s', evs, f⟩
  rw [hc] at hf
  simp only at hf
  subst hf
  have hb : (0 == 0) = true := rfl
  simp only [contCycle, hb, hc, if_true]

/-! ### Claim theorems about empty fetches, appearance, change and
disappearance -/

/-- C4 counterexample: in the continuous monitor, a cycle after the first
whose fetch is empty is not skipped: from recorded state `A ↦ RUNNING` it
emits the went-away line for `A` and clears the map, contradicting the claim
that both monitor variants skip empty fetches with no events, unchanged
ObservedState and no cleared entries. -/
theorem empty_fetch_counterexample :
    contCycle 1 [("A", "RUNNING")] []
      = ([Event.wentAway "A"], Except.ok ([], 2)) := rfl

/-- C4 amended: the bring-up monitor skips any empty-fetch cycle (no events,
state untouched); the continuous monitor is silent on an empty fetch only on
its first cycle (though the cycle counter still advances), while on any later
cycle an empty fetch emits one went-away line per recorded key and clears
ObservedState. -/
theorem empty_fetch_rule (n : Nat) (s : Status)
    (rest : List (Except String (List Instance))) (i : Nat) (hi : i ≠ 0) :
    bringUpRunFrom n s (Except.ok [] :: rest) = bringUpRunFrom (n + 1) s rest
      ∧ contCycle 0 s [] = ([], Except.ok (s, 1))
      ∧ (contCycle i s []).1 = s.map (fun kv => Event.wentAway kv.1)
      ∧ (contCycle i s []).2 = Except.ok ([], i + 1) := by
  have h := contCycle_ok i s [] hi
  have hok : ([] : List (Instance × Except String String)) = okInputs [] := rfl
  refine ⟨rfl, rfl, ?_, ?_⟩
  · rw [hok, h]
    simp [contItems, okInputs, reconcile_nil_fetch]
  · rw [hok, h]
    simp [contItems, okInputs, reconcile_nil_fetch]

/-- Witness for C4's amended theorem at a concrete input. -/
theorem empty_fetch_rule_witness :
    ((1 : Nat) ≠ 0)
      ∧ bringUpRunFrom 5 [("A", "PENDING")] [Except.ok []]
          = bringUpRunFrom 6 [("A", "PENDING")] []
      ∧ (contCycle 1 [("A", "PENDING")] []).1
          = [("A", "PENDING")].map (fun kv => Event.wentAway kv.1) := by
  have h := empty_fetch_rule 5 [("A", "PENDING")] [] 1 (by decide)
  exact ⟨by decide, h.1, h.2.2.1⟩

/-- C5 counterexample: on the continuous monitor's first poll, an instance
absent from ObservedState produces zero events — it is recorded silently —
contradicting the claim that an APPEARED event is emitted on every poll of
both variants, including the first. -/
theorem first_poll_silent_counterexample :
    contCycle 0 [] [(mkInst "A" "PENDING", Except.ok "")]
      = ([], Except.ok ([("A", "PENDING")], 1)) := rfl

/-- C5 amended: an item whose key is absent from ObservedState yields exactly
one appearance line carrying its current phase, and is recorded — in the
bring-up monitor on every poll, and in the continuous monitor on every poll
after the first; on the continuous monitor's first poll the item is recorded
without any event. -/
theorem appearance_rule :
    (∀ (s : Status) (L : List Instance) (inst : Instance),
        (L.map Instance.name).Nodup → inst ∈ L →
        lookupStatus s inst.name = none →
        (bringUpProcess s L).2.count (Event.instanceLine inst.name inst.phase) = 1
          ∧ lookupStatus (bringUpProcess s L).1 inst.name = some inst.phase)
      ∧ (∀ (i : Nat) (s : Status) (pairs : List (Instance × String)) (inst : Instance),
          i ≠ 0 → ((pairs.map Prod.fst).map Instance.name).Nodup →
          inst ∈ pairs.map Prod.fst → lookupStatus s inst.name = none →
          (contCycle i s (okInputs pairs)).1.count
              (Event.newInstance inst.name inst.phase) = 1
            ∧ (contCycle i s (okInputs pairs)).2
                = Except.ok ((reconcile (pairs.map Prod.fst)
                    (contItems false s (okInputs pairs)).1).1, i + 1)
            ∧ lookupStatus ((reconcile (pairs.map Prod.fst)
                  (contItems false s (okInputs pairs)).1).1) inst.name
                = some inst.phase)
      ∧ (∀ (s : Status) (pairs : List (Instance × String)) (inst : Instance),
          ((pairs.map Prod.fst).map Instance.name).Nodup →
          inst ∈ pairs.map Prod.fst →
          (∀ n p, (contCycle 0 s (okInputs pairs)).1.count (Event.newInstance n p) = 0)
            ∧ lookupStatus (contItems true s (okInputs pairs)).1 inst.name
                = some inst.phase) := by
  refine ⟨?_, ?_, ?_⟩
  · intro s L inst hnd hm habs
    constructor
    · rw [bringUp_count s L inst hnd hm, habs]
      simp
    · rw [lookup_bringUpProcess, lastPhaseOf_of_nodup L inst hnd hm]
  · intro i s pairs inst hi hnd hm habs
    have hcy := contCycle_ok i s pairs hi
    have hlast := lastPhaseOf_of_nodup (pairs.map Prod.fst) inst hnd hm
    have hrec0 : ((reconcile (pairs.map Prod.fst)
        (contItems false s (okInputs pairs)).1).2).count
        (Event.newInstance inst.name inst.phase) = 0 := by
      apply List.count_eq_zero.mpr
      intro hmem
      obtain ⟨k, hk⟩ := mem_reconcile_events _ _ _ hmem
      exact Event.noConfusion hk
    refine ⟨?_, ?_, ?_⟩
    · rw [hcy]
      simp only [List.count_append]
      rw [contItems_count_new s pairs inst hnd hm, hrec0, habs]
      simp
    · rw [hcy]
    · rw [lookup_reconcile, hlast]
      have : lookupStatus (contItems false s (okInputs pairs)).1 inst.name
          = some inst.phase := by
        rw [lookup_contItems, hlast]
      simp [this]
  · intro s pairs inst hnd hm
    have hlast := lastPhaseOf_of_nodup (pairs.map Prod.fst) inst hnd hm
    constructor
    · intro n p
      rw [contCycle_first]
      apply List.count_eq_zero.mpr
      intro hmem
      obtain ⟨n', t, hn⟩ := contItems_first_only_logs s pairs _ hmem
      exact Event.noConfusion hn
    · rw [lookup_contItems, hlast]

/-- Witness for C5's amended theorem at a concrete input. -/
theorem appearance_rule_witness :
    ((1 : Nat) ≠ 0)
      ∧ ((([(mkInst "A" "PENDING", "")].map Prod.fst).map Instance.name).Nodup)
      ∧ (contCycle 1 [] (okInputs [(mkInst "A" "PENDING", "")])).1.count
          (Event.newInstance "A" "PENDING") = 1 := by
  have h := appearance_rule.2.1 1 [] [(mkInst "A" "PENDING", "")]
    (mkInst "A" "PENDING") (by decide) (by decide) (by decide) (by decide)
  exact ⟨by decide, by decide, h.1⟩

/-- C6 counterexample: the change line emitted for a phase transition is
identical whatever the previously recorded phase was (`PENDING` vs
`STOPPED`), and its rendered text contains only the new phase — so the
emitted event cannot carry the old value, contradicting the claim that a
CHANGED event carries both old and new values. -/
theorem changed_no_old_value_counterexample :
    ((bringUpProcess [("A", "PENDING")] [mkInst "A" "RUNNING"]).2
        = (bringUpProcess [("A", "STOPPED")] [mkInst "A" "RUNNING"]).2)
      ∧ ((contCycle 1 [("A", "PENDING")] [(mkInst "A" "RUNNING", Except.ok "")]).1
          = (contCycle 1 [("A", "STOPPED")] [(mkInst "A" "RUNNING", Except.ok "")]).1)
      ∧ (((bringUpProcess [("A", "PENDING")] [mkInst "A" "RUNNING"]).2).map render
          = ["| Instance \"A\" is running"])
      ∧ (((contCycle 1 [("A", "PENDING")] [(mkInst "A" "RUNNING", Except.ok "")]).1).map render
          = ["[A] instance is now running"]) :=
  ⟨rfl, rfl, rfl, rfl⟩

/-- C6 amended: an item whose current phase differs from its recorded phase
yields exactly one change line in either monitor variant, and that line
carries the item's name and new phase only — the output is the same whatever
the old recorded phase was. -/
theorem changed_event_rule :
    (∀ (s : Status) (L : List Instance) (inst : Instance) (p : String),
        (L.map Instance.name).Nodup → inst ∈ L →
        lookupStatus s inst.name = some p → p ≠ inst.phase →
        (bringUpProcess s L).2.count (Event.instanceLine inst.name inst.phase) = 1)
      ∧ (∀ (i : Nat) (s : Status) (pairs : List (Instance × String))
            (inst : Instance) (p : String),
          i ≠ 0 → ((pairs.map Prod.fst).map Instance.name).Nodup →
          inst ∈ pairs.map Prod.fst →
          lookupStatus s inst.name = some p → p ≠ inst.phase →
          (contCycle i s (okInputs pairs)).1.count
            (Event.phaseChanged inst.name inst.phase) = 1)
      ∧ (∀ (n p p' q : String), p ≠ q → p' ≠ q →
          (bringUpProcess [(n, p)] [mkInst n q]).2
              = (bringUpProcess [(n, p')] [mkInst n q]).2
            ∧ (contCycle 1 [(n, p)] [(mkInst n q, Except.ok "")]).1
                = (contCycle 1 [(n, p')] [(mkInst n q, Except.ok "")]).1) := by
  have e1 : ∀ (n q pp : String), pp ≠ q →
      (bringUpProcess [(n, pp)] [mkInst n q]).2 = [Event.instanceLine n q] := by
    intro n q pp hpp
    simp [bringUpProcess, bringUpItem, lookupStatus, mkInst, hpp]
  have e2 : ∀ (n q pp : String), pp ≠ q →
      (contCycle 1 [(n, pp)] [(mkInst n q, Except.ok "")]).1
        = [Event.phaseChanged n q] := by
    intro n q pp hpp
    have hok : [(mkInst n q, Except.ok "")] = okInputs [(mkInst n q, "")] := rfl
    rw [hok, contCycle_ok 1 [(n, pp)] [(mkInst n q, "")] one_ne_zero]
    have hsc : scanLines "" = [] := rfl
    have hitems : contItems false [(n, pp)] (okInputs [(mkInst n q, "")])
        = ([(n, q)], [Event.phaseChanged n q], none) := by
      simp [contItems, okInputs, contItem, lookupStatus, mkInst, setStatus, hpp, hsc]
    have hrec : reconcile [mkInst n q] [(n, q)] = ([(n, q)], []) := by
      simp [reconcile, lastPhaseOf, mkInst]
    simp [hitems, hrec]
  refine ⟨?_, ?_, ?_⟩
  · intro s L inst p hnd hm hsome hne
    rw [bringUp_count s L inst hnd hm, hsome]
    simp [hne]
  · intro i s pairs inst p hi hnd hm hsome hne
    have hcy := contCycle_ok i s pairs hi
    have hrec0 : ((reconcile (pairs.map Prod.fst)
        (contItems false s (okInputs pairs)).1).2).count
        (Event.phaseChanged inst.name inst.phase) = 0 := by
      apply List.count_eq_zero.mpr
      intro hmem
      obtain ⟨k, hk⟩ := mem_reconcile_events _ _ _ hmem
      exact Event.noConfusion hk
    rw [hcy]
    simp only [List.count_append]
    rw [contItems_count_changed s pairs inst hnd hm, hrec0, hsome]
    simp [hne]
  · intro n p p' q hp hp'
    exact ⟨(e1 n q p hp).trans (e1 n q p' hp').symm,
      (e2 n q p hp).trans (e2 n q p' hp').symm⟩

/-- Witness for C6's amended theorem at a concrete input. -/
theorem changed_event_rule_witness :
    ("PENDING" ≠ "RUNNING")
      ∧ (bringUpProcess [("A", "PENDING")] [mkInst "A" "RUNNING"]).2.count
          (Event.instanceLine "A" "RUNNING") = 1
      ∧ (contCycle 1 [("A", "PENDING")] (okInputs [(mkInst "A" "RUNNING", "")])).1.count
          (Event.phaseChanged "A" "RUNNING") = 1 := by
  have h1 := changed_event_rule.1 [("A", "PENDING")] [mkInst "A" "RUNNING"]
    (mkInst "A" "RUNNING") "PENDING" (by decide) (by decide) (by decide) (by decide)
  have h2 := changed_event_rule.2.1 1 [("A", "PENDING")] [(mkInst "A" "RUNNING", "")]
    (mkInst "A" "RUNNING") "PENDING" (by decide) (by decide) (by decide) (by decide)
    (by decide)
  exact ⟨by decide, h1, h2⟩

/-- C8: in the continuous monitor, on any cycle after the first, a key
recorded in ObservedState (with the map's unique keys) but missing from the
fetch yields exactly one went-away line; the key is removed from the map at
the end of the cycle; and from a state without the key, a later cycle whose
fetch contains it again emits exactly one fresh new-instance line. -/
theorem disappearance_rule (i : Nat) (s : Status) (pairs : List (Instance × String))
    (k v : String) (hi : i ≠ 0) (hnd : (s.map Prod.fst).Nodup)
    (hk : lookupStatus s k = some v)
    (hmiss : k ∉ (pairs.map Prod.fst).map Instance.name) :
    (contCycle i s (okInputs pairs)).1.count (Event.wentAway k) = 1
      ∧ (contCycle i s (okInputs pairs)).2
          = Except.ok ((reconcile (pairs.map Prod.fst)
              (contItems false s (okInputs pairs)).1).1, i + 1)
      ∧ lookupStatus ((reconcile (pairs.map Prod.fst)
            (contItems false s (okInputs pairs)).1).1) k = none
      ∧ (∀ (j : Nat) (s₂ : Status) (pairs₂ : List (Instance × String)) (inst : Instance),
          j ≠ 0 → ((pairs₂.map Prod.fst).map Instance.name).Nodup →
          inst ∈ pairs₂.map Prod.fst → inst.name = k →
          lookupStatus s₂ k = none →
          (contCycle j s₂ (okInputs pairs₂)).1.count
            (Event.newInstance k inst.phase) = 1) := by
  have hnone : lastPhaseOf k (pairs.map Prod.fst) = none :=
    (lastPhaseOf_eq_none _ _).mpr hmiss
  have hcy := contCycle_ok i s pairs hi
  have hs' : lookupStatus (contItems false s (okInputs pairs)).1 k = some v := by
    rw [lookup_contItems, hnone, hk]
  refine ⟨?_, ?_, ?_, ?_⟩
  · rw [hcy]
    simp only [List.count_append]
    have h0 : ((contItems false s (okInputs pairs)).2.1).count (Event.wentAway k) = 0 := by
      apply List.count_eq_zero.mpr
      intro hmem
      obtain ⟨y, hy, hform⟩ := contItems_event_forms false s pairs _ hmem
      rcases hform with ⟨t, ht⟩ | hfe | hfe
      · exact Event.noConfusion ht
      · exact Event.noConfusion hfe
      · exact Event.noConfusion hfe
    have hmemk : k ∈ (contItems false s (okInputs pairs)).1.map Prod.fst := by
      rw [← lookup_isSome_iff, hs']
      rfl
    have hndk : ((contItems false s (okInputs pairs)).1.map Prod.fst).Nodup :=
      nodup_keys_contItems false s pairs hnd
    rw [h0, reconcile_count_wentAway, hnone]
    simp [List.count_eq_one_of_mem hndk hmemk]
  · rw [hcy]
  · rw [lookup_reconcile, hnone]
  · intro j s₂ pairs₂ inst hj hnd₂ hm₂ hname hnone₂
    subst hname
    have hcy₂ := contCycle_ok j s₂ pairs₂ hj
    have hrec0 : ((reconcile (pairs₂.map Prod.fst)
        (contItems false s₂ (okInputs pairs₂)).1).2).count
        (Event.newInstance inst.name inst.phase) = 0 := by
      apply List.count_eq_zero.mpr
      intro hmem
      obtain ⟨k', hk'⟩ := mem_reconcile_events _ _ _ hmem
      exact Event.noConfusion hk'
    rw [hcy₂]
    simp only [List.count_append]
    rw [contItems_count_new s₂ pairs₂ inst hnd₂ hm₂, hnone₂, hrec0]
    simp

/-- Witness for C8 at a concrete input: state `A ↦ RUNNING`, empty fetch on
cycle 1 emits exactly one went-away line for `A`. -/
theorem disappearance_rule_witness :
    ((1 : Nat) ≠ 0)
      ∧ (([("A", "RUNNING")].map (Prod.fst (β := String))).Nodup)
      ∧ (contCycle 1 [("A", "RUNNING")] (okInputs [])).1.count
          (Event.wentAway "A") = 1 := by
  have h := disappearance_rule 1 [("A", "RUNNING")] [] "A" "RUNNING"
    (by decide) (by decide) (by decide) (by decide)
  exact ⟨by decide, by decide, h.1⟩

/-! ### The WAF tailer across cycles -/

theorem validFromB_head (w : Int) (rs : List WAFRequest)
    (rest : List (List WAFRequest)) (h : validFromB w (rs :: rest) = true) :
    (∀ r ∈ rs, w ≤ r.requestTime) ∧ ascendingB rs = true
      ∧ validFromB (wafCycleAux w rs).1 rest = true := by
  simp only [validFromB, Bool.and_eq_true, List.all_eq_true, decide_eq_true_eq] at h
  exact ⟨h.1.1, h.1.2, h.2⟩

theorem ascendingB_le_last (rs : List WAFRequest) :
    ∀ r, ascendingB rs = true → rs.getLast? = some r →
      ∀ x ∈ rs, x.requestTime ≤ r.requestTime := by
  induction rs with
  | nil => intro r _ hl; cases hl
  | cons a rest ih =>
    intro r h hl x hx
    cases rest with
    | nil =>
      simp only [List.getLast?_singleton, Option.some.injEq] at hl
      subst hl
      rcases List.mem_singleton.mp hx with hxa
      subst hxa
      exact le_refl _
    | cons b rest2 =>
      rw [List.getLast?_cons_cons] at hl
      simp only [ascendingB, Bool.and_eq_true, decide_eq_true_eq] at h
      rcases List.mem_cons.mp hx with hxa | hxm
      · subst hxa
        have hb := ih r h.2 hl b (List.mem_cons_self b rest2)
        exact le_trans h.1 hb
      · exact ih r h.2 hl x hxm

theorem wafCycle_lt (w : Int) (rs : List WAFRequest) (x : WAFRequest)
    (hasc : ascendingB rs = true) (hx : x ∈ rs) :
    x.requestTime < (wafCycleAux w rs).1 := by
  cases hlast : rs.getLast? with
  | none =>
    rw [List.getLast?_eq_none_iff] at hlast
    subst hlast
    cases hx
  | some r =>
    have h1 := ascendingB_le_last rs r hasc hlast x hx
    rw [wafCycleAux_last w rs r hlast]
    omega

theorem mem_of_getLast?_eq (rs : List WAFRequest) (r : WAFRequest)
    (h : rs.getLast? = some r) : r ∈ rs := by
  induction rs with
  | nil => cases h
  | cons a rest ih =>
    cases rest with
    | nil =>
      simp only [List.getLast?_singleton, Option.some.injEq] at h
      subst h
      exact List.mem_singleton_self a
    | cons b rest2 =>
      rw [List.getLast?_cons_cons] at h
      exact List.mem_cons_of_mem a (ih h)

theorem wafCycle_mono (w : Int) (rs : List WAFRequest)
    (hpre : ∀ r ∈ rs, w ≤ r.requestTime) : w ≤ (wafCycleAux w rs).1 := by
  cases hlast : rs.getLast? with
  | none =>
    rw [List.getLast?_eq_none_iff] at hlast
    subst hlast
    exact le_refl w
  | some r =>
    have hr : r ∈ rs := mem_of_getLast?_eq rs r hlast
    have := hpre r hr
    rw [wafCycleAux_last w rs r hlast]
    omega

theorem validFromB_lb (w : Int) (rss : List (List WAFRequest))
    (h : validFromB w rss = true) :
    ∀ c, ∀ r ∈ rss.getD c [], w ≤ r.requestTime := by
  induction rss generalizing w with
  | nil =>
    intro c r hr
    exact absurd hr (List.not_mem_nil r)
  | cons rs rest ih =>
    obtain ⟨h1, h2, h3⟩ := validFromB_head w rs rest h
    intro c r hr
    cases c with
    | zero => exact h1 r hr
    | succ c' =>
      have hw : w ≤ (wafCycleAux w rs).1 := wafCycle_mono w rs h1
      exact le_trans hw (ih _ h3 c' r hr)

theorem validFromB_cross (w : Int) (rss : List (List WAFRequest))
    (h : validFromB w rss = true) :
    ∀ c c', c < c' → ∀ r ∈ rss.getD c [], ∀ r' ∈ rss.getD c' [],
      r.requestTime < r'.requestTime := by
  induction rss generalizing w with
  | nil =>
    intro c c' _ r hr
    exact absurd hr (List.not_mem_nil r)
  | cons rs rest ih =>
    obtain ⟨h1, h2, h3⟩ := validFromB_head w rs rest h
    intro c c' hcc r hr r' hr'
    cases c with
    | zero =>
      cases c' with
      | zero => exact absurd hcc (lt_irrefl 0)
      | succ c'' =>
        have hlt : r.requestTime < (wafCycleAux w rs).1 := wafCycle_lt w rs r h2 hr
        have hlb : (wafCycleAux w rs).1 ≤ r'.requestTime :=
          validFromB_lb _ rest h3 c'' r' hr'
        omega
    | succ c0 =>
      cases c' with
      | zero => exact absurd hcc (by omega)
      | succ c1 =>
        exact ih _ h3 c0 c1 (Nat.lt_of_succ_lt_succ hcc) r hr r' hr'

theorem wafRun_events (w : Int) (rss : List (List WAFRequest)) :
    (wafRun w (rss.map Except.ok)).1
      = (rss.map fun rs => rs.map Event.wafLine).flatten := by
  induction rss generalizing w with
  | nil => rfl
  | cons rs rest ih =>
    simp only [List.map_cons, wafRun, List.flatten_cons]
    rw [wafCycleAux_events, ih]

/-- C7: Under the spec's collaborator contract (each poll returns only
records timestamped at or after the watermark it was given, in ascending
order), the WAF monitor's run output is exactly the per-cycle forwarding of
every returned record once, in order; records of any earlier cycle have
strictly smaller timestamps than records of any later cycle, so no record
returned by one poll is ever returned (or printed) by a later poll. -/
theorem waf_exactly_once (w : Int) (rss : List (List WAFRequest))
    (h : validFromB w rss = true) :
    (wafRun w (rss.map Except.ok)).1
        = (rss.map fun rs => rs.map Event.wafLine).flatten
      ∧ (∀ c c', c < c' → ∀ r ∈ rss.getD c [], ∀ r' ∈ rss.getD c' [],
          r.requestTime < r'.requestTime)
      ∧ (∀ c c', c < c' → ∀ r ∈ rss.getD c [], r ∉ rss.getD c' []) := by
  refine ⟨wafRun_events w rss, validFromB_cross w rss h, ?_⟩
  intro c c' hcc r hr hr'
  have := validFromB_cross w rss h c c' hcc r hr r hr'
  exact absurd this (lt_irrefl _)

/-- Witness for C7 at a concrete valid input: polls `[t=1, t=2]` then
`[t=5]` from watermark 0. -/
theorem waf_exactly_once_witness :
    (validFromB 0 [[mkReq 1, mkReq 2], [mkReq 5]] = true)
      ∧ (wafRun 0 ([[mkReq 1, mkReq 2], [mkReq 5]].map Except.ok)).1
          = ([[mkReq 1, mkReq 2], [mkReq 5]].map fun rs => rs.map Event.wafLine).flatten
      ∧ (mkReq 1 ∉ [[mkReq 1, mkReq 2], [mkReq 5]].getD 1 []) := by
  have h := waf_exactly_once 0 [[mkReq 1, mkReq 2], [mkReq 5]] (by decide)
  exact ⟨by decide, h.1, h.2.2 0 1 (by decide) (mkReq 1) (by decide)⟩

/-! ### Fatal fetch errors -/

/-- C9: In each monitor loop, a failed fetch is immediately fatal: no
retry, no further transition events, the loop ends with the `donef` message
identifying the failing operation (and the instance name for a log fetch),
and the status map or watermark is exactly what it was before the failing
fetch.  The fourth conjunct is the continuous monitor's per-instance log
fetch failing on the first item of a cycle: only that item's own status
line(s) were already emitted and recorded. -/
theorem fetch_error_fatal :
    (∀ (n : Nat) (s : Status) (e : String)
        (rest : List (Except String (List Instance))),
        bringUpRunFrom n s (Except.error e :: rest)
          = ([], BringUpOutcome.fatal s ("Error querying instance status: " ++ e)))
      ∧ (∀ (w : Int) (e : String) (rest : List (Except String (List WAFRequest))),
          wafRun w (Except.error e :: rest)
            = ([], WafOutcome.fatal w ("Error getting WAF requests: " ++ e)))
      ∧ (∀ (i : Nat) (s : Status) (e : String)
            (rest : List (Except String (List (Instance × Except String String)))),
          contRun i s (Except.error e :: rest)
            = ([], ContOutcome.fatal s ("Error querying workload instances: " ++ e)))
      ∧ (∀ (i : Nat) (s : Status) (inst : Instance) (e : String)
            (more : List (Instance × Except String String))
            (rest : List (Except String (List (Instance × Except String String)))),
          contRun i s (Except.ok ((inst, Except.error e) :: more) :: rest)
            = ((contItem (i == 0) s inst).2,
               ContOutcome.fatal (contItem (i == 0) s inst).1
                 ("Error querying " ++ inst.name ++ " instance logs: " ++ e))) :=
  ⟨fun _ _ _ _ => rfl, fun _ _ _ => rfl, fun _ _ _ _ => rfl,
   fun _ _ _ _ _ _ => rfl⟩

end StackpathDemo
